import Mathlib

/-!
Verification of the Hopfield Assignment Problem Solver repository.

The repository has two layers:
* a Go API gateway (`api/internal/models`, `api/internal/handlers`) that
  validates cost matrices, forwards them to the solver service, and collects
  batch results — embedded here from the Go source;
* a Python Hopfield solver service, reachable only over HTTP and not part of
  the source tree — its behaviour is modelled from the specification
  (definitions whose doc comment starts with `Modelled from the spec:`).

Machine floats (`float64`) appear in the Go layer only through the
comparison `cost < 0` and JSON (de)serialization, so they are embedded as an
inductive wrapper `F64` around ℚ with explicit NaN/±∞ constructors and the
IEEE-754 comparison semantics those operations need.
-/

/-- A `float64` value as the Go layer observes it: a finite value (modelled
exactly as a rational), NaN, or one of the two infinities. -/
inductive F64 where
  | finite (q : ℚ)
  | nan
  | posInf
  | negInf
deriving DecidableEq, Repr

/-- IEEE-754 semantics of the Go expression `cost < 0`: `NaN < 0` and
`+∞ < 0` are false, `-∞ < 0` is true, and a finite value compares as its
rational value. -/
def F64.isLtZero : F64 → Bool
  | .finite q => decide (q < 0)
  | .nan => false
  | .posInf => false
  | .negInf => true

/-- Whether the value is finite (neither NaN nor an infinity). -/
def F64.isFinite : F64 → Bool
  | .finite _ => true
  | _ => false

/-- The rational value of a finite `F64`, defaulting to 0 otherwise. -/
def F64.toRatD : F64 → ℚ
  | .finite q => q
  | _ => 0

/-- Embeds Go's `models.ValidationError` (fields `Field`, `Message`). -/
structure ValidationError where
  Field : String
  Message : String
deriving DecidableEq, Repr

/-- Embeds Go's `models.AssignmentRequest`: a request carrying a cost matrix
(`CostMatrix [][]float64`). -/
structure AssignmentRequest where
  CostMatrix : List (List F64)
deriving DecidableEq, Repr

/-- Scan of one row of the cost matrix, embedding the inner loop of
`AssignmentRequest.Validate`: return an error for the first entry with
`cost < 0`.  (The Go message formats the offending float with `%f`; float
formatting is abstracted, the indices are kept.) -/
def findNegInRow (i : Nat) : Nat → List F64 → Option ValidationError
  | _, [] => none
  | j, cost :: rest =>
    if cost.isLtZero then
      some ⟨"cost_matrix",
        "Cost at position [" ++ toString i ++ "][" ++ toString j ++ "] cannot be negative"⟩
    else findNegInRow i (j + 1) rest

/-- Row loop of `AssignmentRequest.Validate`: for each row, first check it
has exactly `n` entries, then scan it for negative entries; return the first
error encountered in row-major order. -/
def validateRows (n : Nat) : Nat → List (List F64) → Option ValidationError
  | _, [] => none
  | i, row :: rest =>
    if row.length ≠ n then
      some ⟨"cost_matrix",
        "The cost matrix must be square. Row " ++ toString i ++ " has " ++
          toString row.length ++ " elements, expected " ++ toString n⟩
    else
      match findNegInRow i 0 row with
      | some e => some e
      | none => validateRows n (i + 1) rest

/-- Embeds Go's `AssignmentRequest.Validate` (models package): error when the
matrix is empty, a row does not have `n = len(CostMatrix)` entries, or an
entry compares `< 0`; otherwise no error.  Note the Go code performs no
finiteness (NaN/∞) check and no maximum-size check. -/
def AssignmentRequest.Validate (r : AssignmentRequest) : Option ValidationError :=
  if r.CostMatrix.length = 0 then
    some ⟨"cost_matrix", "The cost matrix cannot be empty"⟩
  else
    validateRows r.CostMatrix.length 0 r.CostMatrix

/-- State-passing form of `Validate`: the Go method receives the request by
pointer; it only reads it, so the embedded state component is returned
unchanged.  Used to express the frame property of validation. -/
def AssignmentRequest.ValidateSt (r : AssignmentRequest) :
    Option ValidationError × AssignmentRequest :=
  (r.Validate, r)

/-- Embeds Go's `models.AssignmentResponse`: the solver service's reply
(`Assignments []int`, `TotalCost float64`, `Iterations int`,
`CostMatrix [][]float64`). -/
structure AssignmentResponse where
  Assignments : List Int
  TotalCost : F64
  Iterations : Int
  CostMatrix : List (List F64)
deriving DecidableEq, Repr

/-- Embeds Go's `models.APIResponse` with the `Result` payload specialised to
the assignment response it carries in this handler. -/
structure APIResponse where
  Success : Bool
  Result : Option AssignmentResponse
  Error : Option String
deriving DecidableEq, Repr

/-- The HTTP status codes the assignment handlers emit. -/
inductive HttpStatus where
  | ok
  | badRequest
  | internalServerError
deriving DecidableEq, Repr

/-- Status code plus body, as written by `c.JSON(status, body)`. -/
structure HandlerReply where
  status : HttpStatus
  body : APIResponse
deriving DecidableEq, Repr

/-- The solver service as the Go handler sees it: a call that either returns
an `AssignmentResponse` or fails with an error message
(`callHopfieldServiceWithContext`).  Handlers are parametrised over it. -/
def HopfieldCall : Type := List (List F64) → Except String AssignmentResponse

/-- Embeds `AssignmentHandler.SolveAssignment` after JSON binding: validate
the cost matrix, answering 400 on a validation error; otherwise call the
solver service, answering 500 on a call error and 200 with the result on
success. -/
def SolveAssignment (call : HopfieldCall) (req : AssignmentRequest) : HandlerReply :=
  match req.Validate with
  | some e => ⟨.badRequest, ⟨false, none, some e.Message⟩⟩
  | none =>
    match call req.CostMatrix with
    | .error msg => ⟨.internalServerError, ⟨false, none, some ("Internal server error: " ++ msg)⟩⟩
    | .ok result => ⟨.ok, ⟨true, some result, none⟩⟩

/-- Embeds Go's `models.BatchProblem` (`ID string`, `CostMatrix [][]float64`). -/
structure BatchProblem where
  ID : String
  CostMatrix : List (List F64)
deriving DecidableEq, Repr

/-- Embeds Go's `models.BatchResult`: one record per problem of a batch. -/
structure BatchResult where
  ID : String
  Success : Bool
  Result : Option AssignmentResponse
  Error : Option String
deriving DecidableEq, Repr

/-- Embeds Go's `models.BatchResponse`. -/
structure BatchResponse where
  Success : Bool
  Results : List BatchResult
  Error : Option String
deriving DecidableEq, Repr

/-- Status code plus batch body; the 400 branch of `SolveBatch` writes an
`APIResponse`-shaped error body, embedded here as a `BatchResponse` with no
results. -/
structure BatchReply where
  status : HttpStatus
  Success : Bool
  Results : List BatchResult
  Error : Option String
deriving DecidableEq, Repr

/-- One turn of the loop body of `AssignmentHandler.SolveBatch`: validate the
problem's matrix (recording a failure result), otherwise call the solver
service, recording either the error or the successful result under the
problem's id. -/
def solveOneBatchProblem (call : HopfieldCall) (p : BatchProblem) : BatchResult :=
  match (AssignmentRequest.mk p.CostMatrix).Validate with
  | some e => ⟨p.ID, false, none, some e.Message⟩
  | none =>
    match call p.CostMatrix with
    | .error msg => ⟨p.ID, false, none, some msg⟩
    | .ok result => ⟨p.ID, true, some result, none⟩

/-- The `for _, problem := range req.Problems` loop of `SolveBatch`:
appends one `BatchResult` per problem, in order. -/
def processBatchProblems (call : HopfieldCall) : List BatchProblem → List BatchResult
  | [] => []
  | p :: rest => solveOneBatchProblem call p :: processBatchProblems call rest

/-- Embeds `AssignmentHandler.SolveBatch` after JSON binding: reject an empty
problem list with 400, otherwise process every problem and answer 200 with
the collected results. -/
def SolveBatch (call : HopfieldCall) (problems : List BatchProblem) : BatchReply :=
  if problems.length = 0 then
    ⟨.badRequest, false, [], some "At least one problem is required in the batch"⟩
  else
    ⟨.ok, true, processBatchProblems call problems, none⟩

theorem findNegInRow_eq_none_iff (i j : Nat) (row : List F64) :
    findNegInRow i j row = none ↔ ∀ x ∈ row, x.isLtZero = false := by
  induction row generalizing j with
  | nil => simp [findNegInRow]
  | cons a rest ih =>
    by_cases h : a.isLtZero
    · simp [findNegInRow, h]
    · simp only [findNegInRow, h, Bool.false_eq_true, if_false, ih, List.mem_cons]
      constructor
      · rintro hall x (rfl | hx)
        · simpa using h
        · exact hall x hx
      · intro hall x hx
        exact hall x (Or.inr hx)

theorem validateRows_eq_none_iff (n i : Nat) (rows : List (List F64)) :
    validateRows n i rows = none ↔
      ∀ row ∈ rows, row.length = n ∧ ∀ x ∈ row, x.isLtZero = false := by
  induction rows generalizing i with
  | nil => simp [validateRows]
  | cons row rest ih =>
    by_cases hlen : row.length = n
    · rcases hneg : findNegInRow i 0 row with _ | e
      · have hnoneg := (findNegInRow_eq_none_iff i 0 row).mp hneg
        simp only [validateRows, hlen, ne_eq, not_true_eq_false, if_false]
        rw [hneg]
        simp only [ih, List.mem_cons]
        constructor
        · rintro hall r (rfl | hr)
          · exact ⟨hlen, hnoneg⟩
          · exact hall r hr
        · intro hall r hr
          exact hall r (Or.inr hr)
      · simp only [validateRows, hlen, ne_eq, not_true_eq_false, if_false, hneg]
        constructor
        · intro h; cases h
        · intro hall
          have := (findNegInRow_eq_none_iff i 0 row).mpr (hall row (List.mem_cons_self row rest)).2
          rw [this] at hneg; cases hneg
    · simp only [validateRows, hlen, ne_eq, not_false_eq_true, if_true]
      constructor
      · intro h; cases h
      · intro hall
        exact absurd (hall row (List.mem_cons_self row rest)).1 hlen

theorem Validate_eq_none_iff (r : AssignmentRequest) :
    r.Validate = none ↔
      r.CostMatrix ≠ [] ∧
        ∀ row ∈ r.CostMatrix,
          row.length = r.CostMatrix.length ∧ ∀ x ∈ row, x.isLtZero = false := by
  unfold AssignmentRequest.Validate
  by_cases hemp : r.CostMatrix.length = 0
  · simp [hemp, List.length_eq_zero.mp hemp]
  · have hne : r.CostMatrix ≠ [] := by
      intro h; exact hemp (by simp [h])
    simp [hemp, hne, validateRows_eq_none_iff]

theorem Validate_isSome_iff (r : AssignmentRequest) :
    r.Validate.isSome = true ↔
      (r.CostMatrix = [] ∨
        (∃ row ∈ r.CostMatrix, row.length ≠ r.CostMatrix.length) ∨
        (∃ row ∈ r.CostMatrix, ∃ x ∈ row, x.isLtZero = true)) := by
  have hsome : r.Validate.isSome = true ↔ ¬ (r.Validate = none) := by
    cases r.Validate <;> simp
  rw [hsome, Validate_eq_none_iff r]
  push_neg
  constructor
  · intro h
    by_cases hne : r.CostMatrix = []
    · exact Or.inl hne
    obtain ⟨row, hrow, himp⟩ := h hne
    by_cases hlen : row.length = r.CostMatrix.length
    · obtain ⟨x, hx, hxe⟩ := himp hlen
      exact Or.inr (Or.inr ⟨row, hrow, x, hx, by simpa using hxe⟩)
    · exact Or.inr (Or.inl ⟨row, hrow, hlen⟩)
  · rintro (hne | ⟨row, hrow, hlen⟩ | ⟨row, hrow, x, hx, hxe⟩) <;> intro hcm
    · exact absurd hne hcm
    · exact ⟨row, hrow, fun h => absurd h hlen⟩
    · exact ⟨row, hrow, fun _ => ⟨x, hx, by simp [hxe]⟩⟩

/-- C2 counterexample: the matrix `[[NaN]]` is square, non-empty and contains
a non-finite entry; the claim requires the validator to report an error on
it, but `Validate` accepts it (the Go code only compares each entry with
`< 0`, which is false for NaN, and has no finiteness or size check). -/
theorem validate_nonfinite_counterexample :
    (AssignmentRequest.mk [[F64.nan]]).Validate = none ∧
    F64.isFinite F64.nan = false :=
  ⟨rfl, rfl⟩

/-- C2 (amended): validation of a cost matrix fails exactly when the matrix
is empty, some row does not have `n = len(matrix)` entries, or some entry
compares `< 0` in IEEE semantics (negative finite or `-∞`); there is no
finiteness (NaN/`+∞`) check and no maximum-size check.  When validation
fails, the handler answers 400 with `success = false` without invoking the
solver service (the reply is independent of the service). -/
theorem validate_error_iff_and_precedes_solver (r : AssignmentRequest) :
    (r.Validate.isSome = true ↔
      (r.CostMatrix = [] ∨
        (∃ row ∈ r.CostMatrix, row.length ≠ r.CostMatrix.length) ∨
        (∃ row ∈ r.CostMatrix, ∃ x ∈ row, x.isLtZero = true))) ∧
    (∀ e, r.Validate = some e →
      ∀ c₁ c₂ : HopfieldCall,
        SolveAssignment c₁ r = SolveAssignment c₂ r ∧
          (SolveAssignment c₁ r).status = HttpStatus.badRequest ∧
          (SolveAssignment c₁ r).body.Success = false) := by
  refine ⟨Validate_isSome_iff r, ?_⟩
  intro e he c₁ c₂
  refine ⟨?_, ?_, ?_⟩ <;> simp [SolveAssignment, he]

/-- A solver-service stand-in that always fails. -/
def demoCallDown : HopfieldCall := fun _ => Except.error "service unavailable"

/-- A solver-service stand-in that always answers with an empty assignment,
echoing the matrix it was given. -/
def demoCallEcho : HopfieldCall := fun m => Except.ok ⟨[], F64.finite 0, 0, m⟩

/-- A request whose matrix has a negative entry at position [0][1]. -/
def demoNegReq : AssignmentRequest :=
  ⟨[[F64.finite 1, F64.finite (-2)], [F64.finite 3, F64.finite 4]]⟩

theorem validate_error_iff_and_precedes_solver_witness :
    demoNegReq.Validate.isSome = true ∧
    SolveAssignment demoCallDown demoNegReq = SolveAssignment demoCallEcho demoNegReq ∧
    (SolveAssignment demoCallDown demoNegReq).status = HttpStatus.badRequest :=
  ⟨(validate_error_iff_and_precedes_solver demoNegReq).1.mpr
      (Or.inr (Or.inr (by decide))),
   ((validate_error_iff_and_precedes_solver demoNegReq).2
      ⟨"cost_matrix", "Cost at position [0][1] cannot be negative"⟩ rfl
      demoCallDown demoCallEcho).1,
   ((validate_error_iff_and_precedes_solver demoNegReq).2
      ⟨"cost_matrix", "Cost at position [0][1] cannot be negative"⟩ rfl
      demoCallDown demoCallEcho).2.1⟩

/-- C9: a batch whose problem list is empty is answered with status 400 and
`success = false`, with no results; the reply does not depend on the solver
service, so no problem is validated or solved. -/
theorem empty_batch_rejected (c₁ c₂ : HopfieldCall) :
    (SolveBatch c₁ []).status = HttpStatus.badRequest ∧
    (SolveBatch c₁ []).Success = false ∧
    (SolveBatch c₁ []).Results = [] ∧
    SolveBatch c₁ [] = SolveBatch c₂ [] :=
  ⟨rfl, rfl, rfl, rfl⟩

theorem processBatchProblems_eq_map (call : HopfieldCall) (ps : List BatchProblem) :
    processBatchProblems call ps = ps.map (solveOneBatchProblem call) := by
  induction ps with
  | nil => rfl
  | cons p rest ih => simp [processBatchProblems, ih]

theorem solveOneBatchProblem_ID (call : HopfieldCall) (p : BatchProblem) :
    (solveOneBatchProblem call p).ID = p.ID := by
  rcases hv : (AssignmentRequest.mk p.CostMatrix).Validate with _ | e
  · rcases hc : call p.CostMatrix with msg | result <;>
      simp [solveOneBatchProblem, hv, hc]
  · simp [solveOneBatchProblem, hv]

/-- C4: for a non-empty batch, the handler answers 200 with exactly one
result per problem, positionally: the k-th result is a function of the k-th
problem alone (so problems are solved independently and a failing sibling
aborts nothing); each result carries its problem's id, and a problem whose
matrix fails validation yields the error record for that problem. -/
theorem batch_results_pointwise (call : HopfieldCall) (problems : List BatchProblem)
    (hne : problems ≠ []) :
    (SolveBatch call problems).status = HttpStatus.ok ∧
    (SolveBatch call problems).Results.length = problems.length ∧
    (∀ k : Nat, (SolveBatch call problems).Results[k]? =
        (problems[k]?).map (solveOneBatchProblem call)) ∧
    (∀ p : BatchProblem, (solveOneBatchProblem call p).ID = p.ID) ∧
    (∀ p : BatchProblem, ∀ e, (AssignmentRequest.mk p.CostMatrix).Validate = some e →
        solveOneBatchProblem call p = ⟨p.ID, false, none, some e.Message⟩) := by
  have hlen : problems.length ≠ 0 := fun h => hne (List.length_eq_zero.mp h)
  refine ⟨by simp [SolveBatch, hlen], ?_, ?_, solveOneBatchProblem_ID call, ?_⟩
  · simp [SolveBatch, hlen, processBatchProblems_eq_map]
  · intro k
    simp [SolveBatch, hlen, processBatchProblems_eq_map]
  · intro p e he
    simp [solveOneBatchProblem, he]

/-- A batch of two problems: `p1` has a non-square matrix, `p2` is valid. -/
def demoBatch : List BatchProblem :=
  [⟨"p1", [[F64.finite 1, F64.finite 2, F64.finite 3],
           [F64.finite 4, F64.finite 5, F64.finite 6]]⟩,
   ⟨"p2", [[F64.finite 7]]⟩]

theorem batch_results_pointwise_witness :
    (SolveBatch demoCallEcho demoBatch).Results[0]? =
      some ⟨"p1", false, none,
        some "The cost matrix must be square. Row 0 has 3 elements, expected 2"⟩ ∧
    (SolveBatch demoCallEcho demoBatch).Results.length = 2 := by
  obtain ⟨-, hlen, hget, -, hval⟩ :=
    batch_results_pointwise demoCallEcho demoBatch (by decide)
  refine ⟨?_, by simpa [demoBatch] using hlen⟩
  have h1 := hval ⟨"p1", [[F64.finite 1, F64.finite 2, F64.finite 3],
                          [F64.finite 4, F64.finite 5, F64.finite 6]]⟩
    ⟨"cost_matrix", "The cost matrix must be square. Row 0 has 3 elements, expected 2"⟩
    rfl
  rw [hget 0]
  simp [demoBatch, h1]

/-- Modelled from the spec: the solver `Configuration` (§3) — penalty weights
`A, B, C, D`, the iteration cap, the convergence threshold, the Euler step
size, and (per §9) the random seed for the symmetry-breaking initialization
made an explicit configuration input. -/
structure HopfieldConfig where
  A : ℚ
  B : ℚ
  C : ℚ
  D : ℚ
  maxIterations : Nat
  convergenceThreshold : ℚ
  stepSize : ℚ
  seed : Nat
deriving DecidableEq, Repr

/-- Modelled from the spec: `activation(x)`, required to be a saturating,
monotonically increasing map into [0, 1] (the logistic sigmoid is the spec's
example, not a requirement); instantiated with the piecewise-linear
saturating map `max 0 (min 1 (1/2 + x/4))`, which meets the stated contract
and keeps the model in ℚ.  Grids apply it cell-wise. -/
def activation (x : ℚ) : ℚ := max 0 (min 1 (1 / 2 + x / 4))

/-- Modelled from the spec: the `ActivationState` of one solve — the grid of
internal potentials `U` and the activation grid `V`, one cell per
(task, resource) pair. -/
structure NetState (n : Nat) where
  U : Fin n → Fin n → ℚ
  V : Fin n → Fin n → ℚ

/-- Modelled from the spec: the initial state — activations perturbed around
`1/n` by a small deterministic function of the configured seed (the spec
directs that the random source be explicit configuration, so a fixed seed
reproduces the run); potentials start at 0. -/
def initState (n : Nat) (cfg : HopfieldConfig) : NetState n where
  U := fun _ _ => 0
  V := fun i j =>
    1 / (n : ℚ) + (((cfg.seed + i.val * n + j.val) % 7 + 1 : ℕ) : ℚ) / (7000 * ((n : ℚ) + 1))

/-- Modelled from the spec (§4.1): one synchronous update sweep.  Row sums,
column sums and the total sum are all taken from the current `V`; every
potential takes one Euler step down the energy gradient and the new `V` is
the activation of the new potential — no cell sees another cell's update
from the same sweep. -/
def updateSweep {n : Nat} (cost : Fin n → Fin n → ℚ) (cfg : HopfieldConfig)
    (s : NetState n) : NetState n :=
  let rowSum : Fin n → ℚ := fun i => ∑ j, s.V i j
  let colSum : Fin n → ℚ := fun j => ∑ i, s.V i j
  let totalSum : ℚ := ∑ i, ∑ j, s.V i j
  let newU : Fin n → Fin n → ℚ := fun i j =>
    s.U i j - cfg.stepSize *
      (cfg.A * (rowSum i - 1) + cfg.B * (colSum j - 1) +
        cfg.C * (totalSum - (n : ℚ)) + cfg.D * cost i j)
  ⟨newU, fun i j => activation (newU i j)⟩

/-- Modelled from the spec: the largest absolute cell-wise change
`max |Vnew[i][j] - Vold[i][j]|` over the whole grid (0 for an empty grid). -/
def maxChange {n : Nat} (oldV newV : Fin n → Fin n → ℚ) : ℚ :=
  Finset.fold max 0 (fun p : Fin n × Fin n => |newV p.1 p.2 - oldV p.1 p.2|) Finset.univ

/-- Modelled from the spec: the iteration loop.  Each call performs one
synchronous sweep; the loop stops after a sweep once the largest cell-wise
change fell below the convergence threshold, or when the sweep budget
(started at `maxIterations`) runs out, and reports the state together with
the number of sweeps performed. -/
def runLoop {n : Nat} (cost : Fin n → Fin n → ℚ) (cfg : HopfieldConfig) :
    NetState n → Nat → NetState n × Nat
  | s, 0 => (s, 0)
  | s, fuel + 1 =>
    let s' := updateSweep cost cfg s
    if maxChange s.V s'.V < cfg.convergenceThreshold then (s', 1)
    else
      let r := runLoop cost cfg s' fuel
      (r.1, r.2 + 1)

/-- The state after `k` synchronous sweeps from `s`. -/
def stateSeq {n : Nat} (cost : Fin n → Fin n → ℚ) (cfg : HopfieldConfig)
    (s : NetState n) (k : Nat) : NetState n :=
  (updateSweep cost cfg)^[k] s

/-- Sweep `k` (1-based) met the convergence test: the largest cell-wise
change between the grids after `k-1` and after `k` sweeps is below the
threshold. -/
def convergedAt {n : Nat} (cost : Fin n → Fin n → ℚ) (cfg : HopfieldConfig)
    (s : NetState n) (k : Nat) : Prop :=
  maxChange (stateSeq cost cfg s (k - 1)).V (stateSeq cost cfg s k).V <
    cfg.convergenceThreshold

/-- Modelled from the spec (§4.2 step 1): the required deterministic argmax —
among the members of `s` at which `f` is maximal, the one with the lowest
index. -/
def argmaxLowest {n : Nat} (f : Fin n → ℚ) (s : Finset (Fin n)) (hs : s.Nonempty) : Fin n :=
  (s.filter fun j => f j = s.sup' hs f).min'
    (by
      obtain ⟨j, hj, hfj⟩ := Finset.exists_mem_eq_sup' hs f
      exact ⟨j, Finset.mem_filter.mpr ⟨hj, hfj.symm⟩⟩)

/-- Modelled from the spec (§4.2 step 1): the greedy winner-take-all pick —
for each row, the column of maximal activation, ties to the lowest column
index. -/
def greedyPick {n : Nat} (V : Fin n → Fin n → ℚ) (i : Fin n) : Fin n :=
  argmaxLowest (V i) Finset.univ ⟨i, Finset.mem_univ i⟩

/-- Modelled from the spec (§4.2 step 3): a row's confidence is its maximal
activation `max_j V[i][j]`. -/
def confidence {n : Nat} (V : Fin n → Fin n → ℚ) (i : Fin n) : ℚ :=
  Finset.univ.sup' ⟨i, Finset.mem_univ i⟩ (V i)

/-- Modelled from the spec (§4.2 step 3): conflict repair.  While rows remain,
take the most confident remaining row (ties to the lowest row index) and
assign it its highest-activation column among the unclaimed ones (ties to
the lowest column index), claiming that column.  The spec's fallback for a
row that finds every column claimed cannot trigger — there are as many
columns as rows — so that arm pairs the row with itself as a junk value. -/
def repairAssign {n : Nat} (V : Fin n → Fin n → ℚ)
    (rows claimed : Finset (Fin n)) : List (Fin n × Fin n) :=
  if hr : rows.Nonempty then
    let i := argmaxLowest (confidence V) rows hr
    if hc : (Finset.univ \ claimed).Nonempty then
      let j := argmaxLowest (V i) (Finset.univ \ claimed) hc
      (i, j) :: repairAssign V (rows.erase i) (insert j claimed)
    else
      (i, i) :: repairAssign V (rows.erase i) claimed
  else []
termination_by rows.card
decreasing_by
  all_goals
    exact Finset.card_erase_lt_of_mem
      (Finset.mem_filter.mp ((Finset.filter _ rows).min'_mem _)).1

/-- The repair trace for a grid: every row processed, no column claimed yet. -/
def repairTrace {n : Nat} (V : Fin n → Fin n → ℚ) : List (Fin n × Fin n) :=
  repairAssign V Finset.univ ∅

/-- Reads an assignment off a pair list: the column paired with row `i`
(the row itself when the list has no entry for `i`, which the extraction
lemmas rule out). -/
def assignOf {n : Nat} (l : List (Fin n × Fin n)) (i : Fin n) : Fin n :=
  match l.find? (fun r => decide (r.1 = i)) with
  | some r => r.2
  | none => i

/-- Modelled from the spec (§4.2): permutation extraction.  Greedy per-row
argmax picks; when they are already pairwise distinct they are the
assignment, otherwise the conflict repair reassigns every row in
descending-confidence order. -/
def extractAssignment {n : Nat} (V : Fin n → Fin n → ℚ) : Fin n → Fin n :=
  if Function.Injective (greedyPick V) then greedyPick V
  else assignOf (repairTrace V)

/-- Modelled from the spec: `SolveResult` — the extracted permutation, its
total cost, and the recorded iteration count. -/
structure SolveResult (n : Nat) where
  assignment : Fin n → Fin n
  totalCost : ℚ
  iterations : Nat

/-- Modelled from the spec (§6): the solver core `solve`.  Input validation
is the boundary's duty (§4.3), so the core takes an already-validated square
grid; it runs the iteration loop from the seeded initial state, extracts the
assignment, and recomputes the total cost from the assignment and the cost
matrix. -/
def solve {n : Nat} (cost : Fin n → Fin n → ℚ) (cfg : HopfieldConfig) : SolveResult n :=
  let r := runLoop cost cfg (initState n cfg) cfg.maxIterations
  let a := extractAssignment r.1.V
  ⟨a, ∑ i, cost i (a i), r.2⟩

theorem argmaxLowest_spec {n : Nat} (f : Fin n → ℚ) (s : Finset (Fin n)) (hs : s.Nonempty) :
    argmaxLowest f s hs ∈ s ∧
      (∀ x ∈ s, f x ≤ f (argmaxLowest f s hs)) ∧
      (∀ x ∈ s, f x = f (argmaxLowest f s hs) → argmaxLowest f s hs ≤ x) := by
  have hmem' : argmaxLowest f s hs ∈ s.filter (fun j => f j = s.sup' hs f) :=
    Finset.min'_mem _ _
  have hmem := Finset.mem_filter.mp hmem'
  refine ⟨hmem.1, ?_, ?_⟩
  · intro x hx
    calc f x ≤ s.sup' hs f := Finset.le_sup' f hx
    _ = f (argmaxLowest f s hs) := hmem.2.symm
  · intro x hx hfx
    have hxf : x ∈ s.filter (fun j => f j = s.sup' hs f) :=
      Finset.mem_filter.mpr ⟨hx, by rw [hfx, hmem.2]⟩
    exact Finset.min'_le _ x hxf

theorem argmaxLowest_mem {n : Nat} (f : Fin n → ℚ) (s : Finset (Fin n)) (hs : s.Nonempty) :
    argmaxLowest f s hs ∈ s :=
  (argmaxLowest_spec f s hs).1

theorem repairAssign_fst_mem {n : Nat} (V : Fin n → Fin n → ℚ)
    (rows claimed : Finset (Fin n)) :
    ∀ r ∈ repairAssign V rows claimed, r.1 ∈ rows := by
  intro r hr
  rw [repairAssign] at hr
  by_cases hne : rows.Nonempty
  · simp only [dif_pos hne] at hr
    by_cases hc : (Finset.univ \ claimed).Nonempty
    · simp only [dif_pos hc] at hr
      rcases List.mem_cons.mp hr with hr0 | hr'
      · rw [hr0]
        exact argmaxLowest_mem _ _ _
      · exact Finset.mem_of_mem_erase
          (repairAssign_fst_mem V (rows.erase _) _ r hr')
    · simp only [dif_neg hc] at hr
      rcases List.mem_cons.mp hr with hr0 | hr'
      · rw [hr0]
        exact argmaxLowest_mem _ _ _
      · exact Finset.mem_of_mem_erase
          (repairAssign_fst_mem V (rows.erase _) _ r hr')
  · simp only [dif_neg hne] at hr
    cases hr
termination_by rows.card
decreasing_by
  all_goals exact Finset.card_erase_lt_of_mem (argmaxLowest_mem _ _ _)

theorem repairAssign_fst_nodup {n : Nat} (V : Fin n → Fin n → ℚ)
    (rows claimed : Finset (Fin n)) :
    ((repairAssign V rows claimed).map Prod.fst).Nodup := by
  rw [repairAssign]
  by_cases hne : rows.Nonempty
  · simp only [dif_pos hne]
    have hnotin : ∀ claimed' : Finset (Fin n),
        (argmaxLowest (confidence V) rows hne) ∉
          ((repairAssign V (rows.erase (argmaxLowest (confidence V) rows hne)) claimed').map
            Prod.fst) := by
      intro claimed' hmem
      obtain ⟨r, hr, hr1⟩ := List.mem_map.mp hmem
      have := repairAssign_fst_mem V _ _ r hr
      rw [hr1] at this
      exact (Finset.not_mem_erase _ _) this
    by_cases hc : (Finset.univ \ claimed).Nonempty
    · simp only [dif_pos hc, List.map_cons, List.nodup_cons]
      exact ⟨hnotin _, repairAssign_fst_nodup V _ _⟩
    · simp only [dif_neg hc, List.map_cons, List.nodup_cons]
      exact ⟨hnotin _, repairAssign_fst_nodup V _ _⟩
  · simp [dif_neg hne]
termination_by rows.card
decreasing_by
  all_goals exact Finset.card_erase_lt_of_mem (argmaxLowest_mem _ _ _)

theorem repairAssign_complete {n : Nat} (V : Fin n → Fin n → ℚ)
    (rows claimed : Finset (Fin n)) :
    ∀ i ∈ rows, ∃ j, (i, j) ∈ repairAssign V rows claimed := by
  intro i hi
  have hne : rows.Nonempty := ⟨i, hi⟩
  rw [repairAssign]
  simp only [dif_pos hne]
  by_cases heq : i = argmaxLowest (confidence V) rows hne
  · by_cases hc : (Finset.univ \ claimed).Nonempty
    · refine ⟨argmaxLowest (V i) (Finset.univ \ claimed) hc, ?_⟩
      simp only [dif_pos hc, List.mem_cons]
      left
      rw [heq]
    · refine ⟨i, ?_⟩
      simp only [dif_neg hc, List.mem_cons]
      left
      rw [heq]
  · have hi' : i ∈ rows.erase (argmaxLowest (confidence V) rows hne) :=
      Finset.mem_erase.mpr ⟨heq, hi⟩
    by_cases hc : (Finset.univ \ claimed).Nonempty
    · obtain ⟨j, hj⟩ := repairAssign_complete V (rows.erase _) _ i hi'
      exact ⟨j, by simp only [dif_pos hc, List.mem_cons]; right; exact hj⟩
    · obtain ⟨j, hj⟩ := repairAssign_complete V (rows.erase _) _ i hi'
      exact ⟨j, by simp only [dif_neg hc, List.mem_cons]; right; exact hj⟩
termination_by rows.card
decreasing_by
  all_goals exact Finset.card_erase_lt_of_mem (argmaxLowest_mem _ _ _)

theorem repairAssign_fst_sorted {n : Nat} (V : Fin n → Fin n → ℚ)
    (rows claimed : Finset (Fin n)) :
    List.Pairwise (fun a b => confidence V b < confidence V a ∨
      (confidence V a = confidence V b ∧ a < b))
      ((repairAssign V rows claimed).map Prod.fst) := by
  rw [repairAssign]
  by_cases hne : rows.Nonempty
  · simp only [dif_pos hne]
    have hrel : ∀ claimed' : Finset (Fin n),
        ∀ b ∈ ((repairAssign V (rows.erase (argmaxLowest (confidence V) rows hne))
            claimed').map Prod.fst),
          confidence V b < confidence V (argmaxLowest (confidence V) rows hne) ∨
            (confidence V (argmaxLowest (confidence V) rows hne) = confidence V b ∧
              argmaxLowest (confidence V) rows hne < b) := by
      intro claimed' b hb
      obtain ⟨r, hr, hr1⟩ := List.mem_map.mp hb
      have hbr := repairAssign_fst_mem V _ _ r hr
      rw [hr1] at hbr
      have hbne := (Finset.mem_erase.mp hbr).1
      have hbrows := (Finset.mem_erase.mp hbr).2
      have hle := (argmaxLowest_spec (confidence V) rows hne).2.1 b hbrows
      rcases lt_or_eq_of_le hle with hlt | heq2
      · exact Or.inl hlt
      · exact Or.inr ⟨heq2.symm,
          lt_of_le_of_ne ((argmaxLowest_spec (confidence V) rows hne).2.2 b hbrows heq2)
            (Ne.symm hbne)⟩
    by_cases hc : (Finset.univ \ claimed).Nonempty
    · simp only [dif_pos hc, List.map_cons, List.pairwise_cons]
      exact ⟨hrel _, repairAssign_fst_sorted V _ _⟩
    · simp only [dif_neg hc, List.map_cons, List.pairwise_cons]
      exact ⟨hrel _, repairAssign_fst_sorted V _ _⟩
  · simp [dif_neg hne]
termination_by rows.card
decreasing_by
  all_goals exact Finset.card_erase_lt_of_mem (argmaxLowest_mem _ _ _)

theorem repairAssign_snd_facts {n : Nat} (V : Fin n → Fin n → ℚ)
    (rows claimed : Finset (Fin n))
    (hcard : rows.card ≤ (Finset.univ \ claimed).card) :
    ((repairAssign V rows claimed).map Prod.snd).Nodup ∧
      ∀ r ∈ repairAssign V rows claimed, r.2 ∉ claimed := by
  rw [repairAssign]
  by_cases hne : rows.Nonempty
  · have hc : (Finset.univ \ claimed).Nonempty :=
      Finset.card_pos.mp (lt_of_lt_of_le (Finset.card_pos.mpr hne) hcard)
    simp only [dif_pos hne, dif_pos hc, List.map_cons, List.nodup_cons]
    have hjmem : argmaxLowest (V (argmaxLowest (confidence V) rows hne))
        (Finset.univ \ claimed) hc ∈ Finset.univ \ claimed := argmaxLowest_mem _ _ _
    have hjnotcl := (Finset.mem_sdiff.mp hjmem).2
    have hcard' : (rows.erase (argmaxLowest (confidence V) rows hne)).card ≤
        (Finset.univ \ insert (argmaxLowest (V (argmaxLowest (confidence V) rows hne))
          (Finset.univ \ claimed) hc) claimed).card := by
      rw [Finset.sdiff_insert, Finset.card_erase_of_mem (argmaxLowest_mem _ _ _),
        Finset.card_erase_of_mem hjmem]
      omega
    obtain ⟨hnd, hnotin⟩ := repairAssign_snd_facts V _ _ hcard'
    refine ⟨⟨?_, hnd⟩, ?_⟩
    · intro hmem
      obtain ⟨r, hr, hr2⟩ := List.mem_map.mp hmem
      have := hnotin r hr
      rw [hr2] at this
      exact this (Finset.mem_insert_self _ claimed)
    · intro r hr
      rcases List.mem_cons.mp hr with heq | hr'
      · rw [heq]
        exact hjnotcl
      · intro hrcl
        exact hnotin r hr' (Finset.mem_insert_of_mem hrcl)
  · simp [dif_neg hne]
termination_by rows.card
decreasing_by
  exact Finset.card_erase_lt_of_mem (argmaxLowest_mem _ _ _)

/-- Modelled from the spec (§4.2 step 3), stated declaratively: the pair list
assigns, in order, each listed row a column outside the claimed set that
maximises that row's activation among unclaimed columns (ties to the lowest
column index), and claims it for the rows after it. -/
inductive RepairSpec {n : Nat} (V : Fin n → Fin n → ℚ) :
    Finset (Fin n) → List (Fin n × Fin n) → Prop
  | nil (claimed : Finset (Fin n)) : RepairSpec V claimed []
  | cons (claimed : Finset (Fin n)) (i j : Fin n) (l : List (Fin n × Fin n)) :
      j ∉ claimed →
      (∀ c : Fin n, c ∉ claimed → V i c ≤ V i j) →
      (∀ c : Fin n, c ∉ claimed → V i c = V i j → j ≤ c) →
      RepairSpec V (insert j claimed) l →
      RepairSpec V claimed ((i, j) :: l)

theorem repairAssign_repairSpec {n : Nat} (V : Fin n → Fin n → ℚ)
    (rows claimed : Finset (Fin n))
    (hcard : rows.card ≤ (Finset.univ \ claimed).card) :
    RepairSpec V claimed (repairAssign V rows claimed) := by
  rw [repairAssign]
  by_cases hne : rows.Nonempty
  · have hc : (Finset.univ \ claimed).Nonempty :=
      Finset.card_pos.mp (lt_of_lt_of_le (Finset.card_pos.mpr hne) hcard)
    simp only [dif_pos hne, dif_pos hc]
    have hjmem : argmaxLowest (V (argmaxLowest (confidence V) rows hne))
        (Finset.univ \ claimed) hc ∈ Finset.univ \ claimed := argmaxLowest_mem _ _ _
    have hcard' : (rows.erase (argmaxLowest (confidence V) rows hne)).card ≤
        (Finset.univ \ insert (argmaxLowest (V (argmaxLowest (confidence V) rows hne))
          (Finset.univ \ claimed) hc) claimed).card := by
      rw [Finset.sdiff_insert, Finset.card_erase_of_mem (argmaxLowest_mem _ _ _),
        Finset.card_erase_of_mem hjmem]
      omega
    refine RepairSpec.cons claimed _ _ _ (Finset.mem_sdiff.mp hjmem).2 ?_ ?_
      (repairAssign_repairSpec V _ _ hcard')
    · intro c hcnot
      exact (argmaxLowest_spec _ _ hc).2.1 c
        (Finset.mem_sdiff.mpr ⟨Finset.mem_univ c, hcnot⟩)
    · intro c hcnot hceq
      exact (argmaxLowest_spec _ _ hc).2.2 c
        (Finset.mem_sdiff.mpr ⟨Finset.mem_univ c, hcnot⟩) hceq
  · simp only [dif_neg hne]
    exact RepairSpec.nil claimed
termination_by rows.card
decreasing_by
  exact Finset.card_erase_lt_of_mem (argmaxLowest_mem _ _ _)

theorem assignOf_eq_of_mem {n : Nat} (l : List (Fin n × Fin n)) (i j : Fin n)
    (hnd : (l.map Prod.fst).Nodup) (hmem : (i, j) ∈ l) : assignOf l i = j := by
  induction l with
  | nil => cases hmem
  | cons r t ih =>
    rcases List.mem_cons.mp hmem with heq | hmem'
    · have hpr : (fun x : Fin n × Fin n => decide (x.1 = i)) r = true := by
        rw [← heq]
        simp
      have hfind : (r :: t).find? (fun x => decide (x.1 = i)) = some r :=
        List.find?_cons_of_pos _ hpr
      unfold assignOf
      rw [hfind, ← heq]
    · by_cases hri : r.1 = i
      · exfalso
        have hintl : i ∈ t.map Prod.fst := List.mem_map.mpr ⟨(i, j), hmem', rfl⟩
        rw [List.map_cons, List.nodup_cons] at hnd
        exact hnd.1 (hri ▸ hintl)
      · have hpr : (fun x : Fin n × Fin n => decide (x.1 = i)) r = false := by
          simp [hri]
        have hfind : (r :: t).find? (fun x => decide (x.1 = i)) =
            t.find? (fun x => decide (x.1 = i)) :=
          List.find?_cons_of_neg _ (by simp [hri])
        have hndt : (t.map Prod.fst).Nodup := by
          rw [List.map_cons, List.nodup_cons] at hnd
          exact hnd.2
        have := ih hndt hmem'
        unfold assignOf at this ⊢
        rw [hfind]
        exact this

theorem extractAssignment_injective {n : Nat} (V : Fin n → Fin n → ℚ) :
    Function.Injective (extractAssignment V) := by
  unfold extractAssignment
  by_cases hinj : Function.Injective (greedyPick V)
  · rwa [if_pos hinj]
  · rw [if_neg hinj]
    intro i1 i2 heq
    have hcard : (Finset.univ : Finset (Fin n)).card ≤
        (Finset.univ \ (∅ : Finset (Fin n))).card := by simp
    obtain ⟨j1, hj1⟩ := repairAssign_complete V Finset.univ ∅ i1 (Finset.mem_univ i1)
    obtain ⟨j2, hj2⟩ := repairAssign_complete V Finset.univ ∅ i2 (Finset.mem_univ i2)
    have hnd : ((repairTrace V).map Prod.fst).Nodup := repairAssign_fst_nodup V _ _
    have e1 : assignOf (repairTrace V) i1 = j1 := assignOf_eq_of_mem _ _ _ hnd hj1
    have e2 : assignOf (repairTrace V) i2 = j2 := assignOf_eq_of_mem _ _ _ hnd hj2
    rw [e1, e2] at heq
    subst heq
    have hsndnd := (repairAssign_snd_facts V Finset.univ ∅ hcard).1
    have hpair := List.inj_on_of_nodup_map hsndnd hj1 hj2 rfl
    exact congrArg Prod.fst hpair

theorem stateSeq_zero {n : Nat} (cost : Fin n → Fin n → ℚ) (cfg : HopfieldConfig)
    (s : NetState n) : stateSeq cost cfg s 0 = s :=
  rfl

theorem stateSeq_succ_shift {n : Nat} (cost : Fin n → Fin n → ℚ) (cfg : HopfieldConfig)
    (s : NetState n) (k : Nat) :
    stateSeq cost cfg s (k + 1) = stateSeq cost cfg (updateSweep cost cfg s) k :=
  Function.iterate_succ_apply (updateSweep cost cfg) k s

theorem convergedAt_one {n : Nat} (cost : Fin n → Fin n → ℚ) (cfg : HopfieldConfig)
    (s : NetState n) :
    convergedAt cost cfg s 1 ↔
      maxChange s.V (updateSweep cost cfg s).V < cfg.convergenceThreshold := by
  unfold convergedAt
  rw [stateSeq_zero]
  rw [show stateSeq cost cfg s 1 = updateSweep cost cfg s from
    congrFun (Function.iterate_one _) _]

theorem convergedAt_succ {n : Nat} (cost : Fin n → Fin n → ℚ) (cfg : HopfieldConfig)
    (s : NetState n) (k : Nat) (hk : 1 ≤ k) :
    (convergedAt cost cfg s (k + 1) ↔
      convergedAt cost cfg (updateSweep cost cfg s) k) := by
  unfold convergedAt
  have h1 : k + 1 - 1 = (k - 1) + 1 := by omega
  rw [h1, stateSeq_succ_shift, stateSeq_succ_shift]

theorem runLoop_spec {n : Nat} (cost : Fin n → Fin n → ℚ) (cfg : HopfieldConfig) :
    ∀ (fuel : Nat) (s : NetState n), 1 ≤ fuel →
      1 ≤ (runLoop cost cfg s fuel).2 ∧
      (runLoop cost cfg s fuel).2 ≤ fuel ∧
      (runLoop cost cfg s fuel).1 = stateSeq cost cfg s (runLoop cost cfg s fuel).2 ∧
      ((runLoop cost cfg s fuel).2 = fuel ∨
        convergedAt cost cfg s (runLoop cost cfg s fuel).2) ∧
      (∀ k, 1 ≤ k → k < (runLoop cost cfg s fuel).2 → ¬ convergedAt cost cfg s k) := by
  intro fuel
  induction fuel with
  | zero => intro s h; exact absurd h (by omega)
  | succ fuel ih =>
    intro s _
    by_cases hcv : maxChange s.V (updateSweep cost cfg s).V < cfg.convergenceThreshold
    · have hrun : runLoop cost cfg s (fuel + 1) = (updateSweep cost cfg s, 1) := by
        rw [runLoop]
        simp only [if_pos hcv]
      rw [hrun]
      refine ⟨le_refl 1, by omega, ?_, Or.inr ?_, ?_⟩
      · show updateSweep cost cfg s = stateSeq cost cfg s 1
        exact (congrFun (Function.iterate_one _) _).symm
      · exact (convergedAt_one cost cfg s).mpr hcv
      · intro k hk1 hk2
        omega
    · have hrun : runLoop cost cfg s (fuel + 1) =
          ((runLoop cost cfg (updateSweep cost cfg s) fuel).1,
            (runLoop cost cfg (updateSweep cost cfg s) fuel).2 + 1) := by
        rw [runLoop]
        simp only [if_neg hcv]
      rcases Nat.eq_zero_or_pos fuel with hf0 | hfpos
      · subst hf0
        rw [hrun]
        have hz : runLoop cost cfg (updateSweep cost cfg s) 0 =
            (updateSweep cost cfg s, 0) := rfl
        rw [hz]
        refine ⟨le_refl 1, le_refl 1, ?_, Or.inl rfl, ?_⟩
        · show updateSweep cost cfg s = stateSeq cost cfg s 1
          exact (congrFun (Function.iterate_one _) _).symm
        · intro k hk1 hk2
          omega
      · obtain ⟨h1, h2, hst, hdisj, hnoconv⟩ := ih (updateSweep cost cfg s) hfpos
        rw [hrun]
        refine ⟨by omega, by omega, ?_, ?_, ?_⟩
        · rw [stateSeq_succ_shift]
          exact hst
        · rcases hdisj with heq | hcv'
          · exact Or.inl (by omega)
          · exact Or.inr ((convergedAt_succ cost cfg s _ h1).mpr hcv')
        · intro k hk1 hk2
          rcases Nat.eq_or_lt_of_le hk1 with hk1e | hk1lt
          · rw [← hk1e]
            rw [convergedAt_one]
            exact hcv
          · obtain ⟨k', rfl⟩ : ∃ k', k = k' + 1 := ⟨k - 1, by omega⟩
            rw [convergedAt_succ cost cfg s k' (by omega)]
            exact hnoconv k' (by omega) (by omega)

/-- C1: for every n×n cost grid (squareness is carried by the index types;
validity checking is the boundary's duty) and every configuration, the
assignment returned by `solve` is a bijection of the index set — a
permutation of 0..n-1.  The theorem has no convergence hypothesis, so it
covers in particular runs that stopped only because `maxIterations` was
exhausted: extraction and conflict repair operate on whatever grid the loop
left behind. -/
theorem solve_assignment_is_permutation {n : Nat} (cost : Fin n → Fin n → ℚ)
    (cfg : HopfieldConfig) :
    Function.Bijective (solve cost cfg).assignment :=
  Finite.injective_iff_bijective.mp (extractAssignment_injective _)

/-- C3: the `totalCost` reported by `solve` equals `Σ_i cost[i][assignment[i]]`
recomputed from the returned assignment and the input cost grid. -/
theorem totalCost_recomputed {n : Nat} (cost : Fin n → Fin n → ℚ)
    (cfg : HopfieldConfig) :
    (solve cost cfg).totalCost = ∑ i, cost i ((solve cost cfg).assignment i) :=
  rfl

/-- C5: the loop stops exactly at the earlier of the two exit conditions —
the recorded count lies in [1, maxIterations]; at the recorded count either
the budget was exhausted or the largest absolute cell-wise change fell below
the convergence threshold; and at no earlier sweep had the change dropped
below the threshold (so whichever condition comes first stops the loop). -/
theorem iteration_loop_stopping {n : Nat} (cost : Fin n → Fin n → ℚ)
    (cfg : HopfieldConfig) (hmax : 1 ≤ cfg.maxIterations) :
    1 ≤ (solve cost cfg).iterations ∧
    (solve cost cfg).iterations ≤ cfg.maxIterations ∧
    ((solve cost cfg).iterations = cfg.maxIterations ∨
      convergedAt cost cfg (initState n cfg) (solve cost cfg).iterations) ∧
    (∀ k, 1 ≤ k → k < (solve cost cfg).iterations →
      ¬ convergedAt cost cfg (initState n cfg) k) := by
  have h := runLoop_spec cost cfg cfg.maxIterations (initState n cfg) hmax
  exact ⟨h.1, h.2.1, h.2.2.2.1, h.2.2.2.2⟩

/-- A 1×1 demo cost grid with entry 5. -/
def demoCost1 : Fin 1 → Fin 1 → ℚ := fun _ _ => 5

/-- A small demo configuration: unit weights and step, iteration cap 2,
threshold 1/1000, seed 0. -/
def demoCfg : HopfieldConfig := ⟨1, 1, 1, 1, 2, 1 / 1000, 1, 0⟩

theorem iteration_loop_stopping_witness :
    1 ≤ demoCfg.maxIterations ∧
    1 ≤ (solve demoCost1 demoCfg).iterations ∧
    (solve demoCost1 demoCfg).iterations ≤ demoCfg.maxIterations := by
  have h := iteration_loop_stopping demoCost1 demoCfg (by decide)
  exact ⟨by decide, h.1, h.2.1⟩

/-- C6: `solve` is deterministic.  The model follows the spec's direction to
make the random seed explicit configuration, so identical cost grids and
identical configurations (seed included) yield identical assignments and
iteration counts on repeated runs. -/
theorem solve_deterministic {n : Nat} (cost1 cost2 : Fin n → Fin n → ℚ)
    (cfg1 cfg2 : HopfieldConfig) (hcost : cost1 = cost2) (hcfg : cfg1 = cfg2) :
    (solve cost1 cfg1).assignment = (solve cost2 cfg2).assignment ∧
    (solve cost1 cfg1).iterations = (solve cost2 cfg2).iterations := by
  subst hcost
  subst hcfg
  exact ⟨rfl, rfl⟩

/-- The demo configuration written with different but equal numerals. -/
def demoCfgAlt : HopfieldConfig := ⟨2 / 2, 1, 1, 1, 2, 2 / 2000, 1, 0⟩

theorem solve_deterministic_witness :
    (solve demoCost1 demoCfg).assignment = (solve demoCost1 demoCfgAlt).assignment ∧
    (solve demoCost1 demoCfg).iterations = (solve demoCost1 demoCfgAlt).iterations :=
  solve_deterministic demoCost1 demoCost1 demoCfg demoCfgAlt rfl
    (by simp only [demoCfg, demoCfgAlt, HopfieldConfig.mk.injEq]; norm_num)

/-- C7: permutation extraction follows the spec's policy.  (1) Every row's
greedy pick maximises that row's activation, ties to the lowest column
index.  (2) When the greedy picks nowhere conflict they are the returned
assignment.  (3) Otherwise the assignment is read off the repair trace,
which lists every row exactly once, ordered by descending confidence with
ties to the lowest row index, and gives each row its highest-activation
column among those not claimed by earlier rows, ties to the lowest column
index (`RepairSpec`); the spec's all-columns-claimed fallback cannot arise
since columns are as many as rows. -/
theorem extraction_characterization {n : Nat} (V : Fin n → Fin n → ℚ) :
    (∀ i : Fin n, (∀ j : Fin n, V i j ≤ V i (greedyPick V i)) ∧
      (∀ j : Fin n, V i j = V i (greedyPick V i) → greedyPick V i ≤ j)) ∧
    (Function.Injective (greedyPick V) → extractAssignment V = greedyPick V) ∧
    (¬ Function.Injective (greedyPick V) →
      extractAssignment V = assignOf (repairTrace V) ∧
      RepairSpec V ∅ (repairTrace V) ∧
      ((repairTrace V).map Prod.fst).Nodup ∧
      (∀ i : Fin n, i ∈ (repairTrace V).map Prod.fst) ∧
      List.Pairwise (fun a b => confidence V b < confidence V a ∨
        (confidence V a = confidence V b ∧ a < b))
        ((repairTrace V).map Prod.fst)) := by
  refine ⟨?_, ?_, ?_⟩
  · intro i
    have h := argmaxLowest_spec (V i) Finset.univ ⟨i, Finset.mem_univ i⟩
    exact ⟨fun j => h.2.1 j (Finset.mem_univ j), fun j => h.2.2 j (Finset.mem_univ j)⟩
  · intro hinj
    unfold extractAssignment
    rw [if_pos hinj]
  · intro hinj
    refine ⟨?_, ?_, repairAssign_fst_nodup V _ _, ?_, repairAssign_fst_sorted V _ _⟩
    · unfold extractAssignment
      rw [if_neg hinj]
    · exact repairAssign_repairSpec V _ _ (by simp)
    · intro i
      obtain ⟨j, hj⟩ := repairAssign_complete V Finset.univ ∅ i (Finset.mem_univ i)
      exact List.mem_map.mpr ⟨(i, j), hj, rfl⟩

/-- A 2×2 grid with all activations equal: both greedy picks collide on
column 0, so extraction must go through the conflict repair. -/
def demoGridV : Fin 2 → Fin 2 → ℚ := fun _ _ => 1

theorem extraction_characterization_witness :
    extractAssignment demoGridV = assignOf (repairTrace demoGridV) ∧
    RepairSpec demoGridV ∅ (repairTrace demoGridV) :=
  ⟨((extraction_characterization demoGridV).2.2 (by decide)).1,
   ((extraction_characterization demoGridV).2.2 (by decide)).2.1⟩

/-- Whether every entry of a request matrix is finite. -/
def allFinite (m : List (List F64)) : Bool := m.all fun row => row.all F64.isFinite

/-- Whether a request matrix is square: every row as long as the row list. -/
def isSquare (m : List (List F64)) : Bool := m.all fun row => row.length = m.length

/-- The rational cost grid read off a (finite, square) request matrix. -/
def costGrid (m : List (List F64)) : Fin m.length → Fin m.length → ℚ :=
  fun i j => F64.toRatD ((m.get i).getD j.val F64.nan)

/-- Modelled from the spec: the Python Hopfield solver service behind
`callHopfieldServiceWithContext` (its source is not part of the tree).  It
refuses an invalid matrix and otherwise runs the solver core on the grid
with its configuration (a parameter here), answering with the assignment,
the total cost, the iteration count, and — per the response model
`AssignmentResponse.CostMatrix` and the API documentation — the cost matrix
exactly as submitted: the input matrix is echoed, never mutated. -/
def hopfieldService (cfg : HopfieldConfig) : HopfieldCall := fun m =>
  if 0 < m.length ∧ allFinite m = true ∧ isSquare m = true then
    let r := solve (costGrid m) cfg
    Except.ok ⟨List.ofFn (fun i => ((r.assignment i).val : Int)),
      F64.finite r.totalCost, (r.iterations : Int), m⟩
  else Except.error "Invalid matrix"

/-- C8: the cost matrix is never mutated once received — validation returns
its request state unchanged (the Go method only reads through the pointer),
and every successful solve reply carries back exactly the submitted cost
matrix. -/
theorem cost_matrix_preserved (cfg : HopfieldConfig) (req : AssignmentRequest) :
    req.ValidateSt.2 = req ∧
    (∀ resp, (SolveAssignment (hopfieldService cfg) req).body.Result = some resp →
      resp.CostMatrix = req.CostMatrix) := by
  refine ⟨rfl, ?_⟩
  intro resp hresp
  rcases hv : req.Validate with _ | e
  · rcases hcall : hopfieldService cfg req.CostMatrix with msg | result
    · simp [SolveAssignment, hv, hcall] at hresp
    · simp only [SolveAssignment, hv, hcall] at hresp
      have hres : result = resp := by
        simpa using hresp
      subst hres
      unfold hopfieldService at hcall
      by_cases hok : 0 < req.CostMatrix.length ∧ allFinite req.CostMatrix = true ∧
          isSquare req.CostMatrix = true
      · rw [if_pos hok] at hcall
        simp only [Except.ok.injEq] at hcall
        rw [← hcall]
      · rw [if_neg hok] at hcall
        cases hcall
  · simp [SolveAssignment, hv] at hresp

/-- A valid 1×1 request. -/
def demoReq1 : AssignmentRequest := ⟨[[F64.finite 5]]⟩

/-- The reply the modelled service computes for `demoReq1` under `demoCfg`,
written with its solver subterms unevaluated. -/
def demoResp1 : AssignmentResponse :=
  ⟨List.ofFn (fun i => ((solve (costGrid demoReq1.CostMatrix) demoCfg).assignment i).val),
    F64.finite (solve (costGrid demoReq1.CostMatrix) demoCfg).totalCost,
    ((solve (costGrid demoReq1.CostMatrix) demoCfg).iterations : Int),
    demoReq1.CostMatrix⟩

theorem cost_matrix_preserved_witness :
    (SolveAssignment (hopfieldService demoCfg) demoReq1).body.Result = some demoResp1 ∧
    demoResp1.CostMatrix = demoReq1.CostMatrix :=
  ⟨rfl, (cost_matrix_preserved demoCfg demoReq1).2 demoResp1 rfl⟩

/-- A JSON value — the currency of Go's `encoding/json` at the level this
model needs (byte rendering and parsing of a value are abstracted as the
inverse pair they are for values Go marshals). -/
inductive Json where
  | null
  | bool (b : Bool)
  | num (q : ℚ)
  | str (s : String)
  | arr (elems : List Json)
  | obj (fields : List (String × Json))

/-- Go's `json.Marshal` on one `float64`: a finite value becomes a JSON
number carrying the same value (Go prints the shortest decimal that parses
back to the identical float); NaN and the infinities are rejected with
`json: unsupported value`. -/
def marshalF64 : F64 → Except String Json
  | .finite q => .ok (.num q)
  | _ => .error "json: unsupported value"

/-- Marshalling of a `[]float64`, element by element, failing on the first
unsupported value as Go does. -/
def marshalRowList : List F64 → Except String (List Json)
  | [] => .ok []
  | x :: rest =>
    match marshalF64 x with
    | .error e => .error e
    | .ok jx =>
      match marshalRowList rest with
      | .error e => .error e
      | .ok js => .ok (jx :: js)

/-- A `[]float64` as a JSON array. -/
def marshalRow (row : List F64) : Except String Json :=
  match marshalRowList row with
  | .error e => .error e
  | .ok js => .ok (.arr js)

/-- Marshalling of a `[][]float64`, row by row. -/
def marshalMatrixList : List (List F64) → Except String (List Json)
  | [] => .ok []
  | row :: rest =>
    match marshalRow row with
    | .error e => .error e
    | .ok jr =>
      match marshalMatrixList rest with
      | .error e => .error e
      | .ok js => .ok (jr :: js)

/-- A `[][]float64` as a JSON array of arrays. -/
def marshalMatrix (m : List (List F64)) : Except String Json :=
  match marshalMatrixList m with
  | .error e => .error e
  | .ok js => .ok (.arr js)

/-- Embeds `AssignmentRequest.ToJSON` (= `json.Marshal(r)`): an object with
the tagged field `cost_matrix`. -/
def AssignmentRequest.ToJSON (r : AssignmentRequest) : Except String Json :=
  match marshalMatrix r.CostMatrix with
  | .error e => .error e
  | .ok m => .ok (.obj [("cost_matrix", m)])

/-- Go's `json.Unmarshal` into one `float64`: only a number is accepted. -/
def unmarshalF64 : Json → Except String F64
  | .num q => .ok (.finite q)
  | _ => .error "json: cannot unmarshal value into float64"

/-- Unmarshalling of a JSON array into a `[]float64`. -/
def unmarshalF64List : List Json → Except String (List F64)
  | [] => .ok []
  | j :: rest =>
    match unmarshalF64 j with
    | .error e => .error e
    | .ok x =>
      match unmarshalF64List rest with
      | .error e => .error e
      | .ok xs => .ok (x :: xs)

/-- A JSON value as a `[]float64` (`null` gives Go's nil slice). -/
def unmarshalRow : Json → Except String (List F64)
  | .null => .ok []
  | .arr xs => unmarshalF64List xs
  | _ => .error "json: cannot unmarshal value into []float64"

/-- Unmarshalling of a JSON array into a `[][]float64`, row by row. -/
def unmarshalRowList : List Json → Except String (List (List F64))
  | [] => .ok []
  | j :: rest =>
    match unmarshalRow j with
    | .error e => .error e
    | .ok row =>
      match unmarshalRowList rest with
      | .error e => .error e
      | .ok rows => .ok (row :: rows)

/-- A JSON value as a `[][]float64` (`null` gives Go's nil slice). -/
def unmarshalMatrix : Json → Except String (List (List F64))
  | .null => .ok []
  | .arr rows => unmarshalRowList rows
  | _ => .error "json: cannot unmarshal value into [][]float64"

/-- Embeds `AssignmentRequest.FromJSON` (= `json.Unmarshal(data, r)`): on an
object, decode the `cost_matrix` field as a `[][]float64`; an absent field
leaves the zero value, as Go's Unmarshal does. -/
def AssignmentRequest.FromJSON (j : Json) : Except String AssignmentRequest :=
  match j with
  | .obj fields =>
    match fields.lookup "cost_matrix" with
    | some v =>
      match unmarshalMatrix v with
      | .error e => .error e
      | .ok m => .ok ⟨m⟩
    | none => .ok ⟨[]⟩
  | _ => .error "json: cannot unmarshal value into AssignmentRequest"

theorem marshalF64_roundtrip (x : F64) (j : Json) (h : marshalF64 x = .ok j) :
    unmarshalF64 j = .ok x := by
  cases x with
  | finite q =>
    simp only [marshalF64, Except.ok.injEq] at h
    rw [← h]
    rfl
  | nan => simp [marshalF64] at h
  | posInf => simp [marshalF64] at h
  | negInf => simp [marshalF64] at h

theorem marshalRowList_roundtrip (row : List F64) (js : List Json)
    (h : marshalRowList row = .ok js) : unmarshalF64List js = .ok row := by
  induction row generalizing js with
  | nil =>
    simp only [marshalRowList, Except.ok.injEq] at h
    rw [← h]
    rfl
  | cons x rest ih =>
    simp only [marshalRowList] at h
    rcases hx : marshalF64 x with e | jx <;> rw [hx] at h
    · cases h
    · rcases hr : marshalRowList rest with e | js' <;> rw [hr] at h
      · cases h
      · simp only [Except.ok.injEq] at h
        rw [← h]
        simp [unmarshalF64List, marshalF64_roundtrip x jx hx, ih js' hr]

theorem marshalRow_roundtrip (row : List F64) (j : Json)
    (h : marshalRow row = .ok j) : unmarshalRow j = .ok row := by
  unfold marshalRow at h
  rcases hl : marshalRowList row with e | js <;> rw [hl] at h
  · cases h
  · simp only [Except.ok.injEq] at h
    rw [← h]
    exact marshalRowList_roundtrip row js hl

theorem marshalMatrixList_roundtrip (m : List (List F64)) (js : List Json)
    (h : marshalMatrixList m = .ok js) : unmarshalRowList js = .ok m := by
  induction m generalizing js with
  | nil =>
    simp only [marshalMatrixList, Except.ok.injEq] at h
    rw [← h]
    rfl
  | cons row rest ih =>
    simp only [marshalMatrixList] at h
    rcases hr : marshalRow row with e | jr <;> rw [hr] at h
    · cases h
    · rcases hm : marshalMatrixList rest with e | js' <;> rw [hm] at h
      · cases h
      · simp only [Except.ok.injEq] at h
        rw [← h]
        simp [unmarshalRowList, marshalRow_roundtrip row jr hr, ih js' hm]

/-- C10: serialization round-trip — whenever `ToJSON` succeeds (it fails
exactly on non-finite entries, which Go's Marshal rejects), `FromJSON` of
the produced value succeeds and returns a request with the same cost
matrix (the request's only field). -/
theorem toJSON_fromJSON_roundtrip (r : AssignmentRequest) (j : Json)
    (h : r.ToJSON = Except.ok j) :
    AssignmentRequest.FromJSON j = Except.ok r := by
  unfold AssignmentRequest.ToJSON at h
  rcases hm : marshalMatrix r.CostMatrix with e | mj <;> rw [hm] at h
  · cases h
  · simp only [Except.ok.injEq] at h
    rw [← h]
    unfold marshalMatrix at hm
    rcases hl : marshalMatrixList r.CostMatrix with e | js <;> rw [hl] at hm
    · cases hm
    · simp only [Except.ok.injEq] at hm
      rw [← hm]
      simp [AssignmentRequest.FromJSON, List.lookup, unmarshalMatrix,
        marshalMatrixList_roundtrip r.CostMatrix js hl]

/-- The request of the repository's own round-trip test. -/
def demoJReq : AssignmentRequest :=
  ⟨[[F64.finite 1, F64.finite 2], [F64.finite 3, F64.finite 4]]⟩

/-- The JSON value `ToJSON` produces for `demoJReq`. -/
def demoJson : Json :=
  .obj [("cost_matrix",
    .arr [.arr [.num 1, .num 2], .arr [.num 3, .num 4]])]

theorem toJSON_fromJSON_roundtrip_witness :
    demoJReq.ToJSON = Except.ok demoJson ∧
    AssignmentRequest.FromJSON demoJson = Except.ok demoJReq :=
  ⟨rfl, toJSON_fromJSON_roundtrip demoJReq demoJson rfl⟩
